import Mathlib

/-
Verification of the Merkle node store (src/src/merkle/store/mod.rs).

Digests are modelled as natural numbers. The backend map (a BTreeMap from
digests to nodes) is modelled as an association list kept sorted by key by
the insert operation. External collaborators of the store (the compression
function Rpo256::merge, NodeIndex, EmptySubtreeRoots, MerklePath::inner_nodes
and the byte reader/writer primitives) are not part of the analysed source
and are modelled from the specification; every such definition carries a
doc comment starting with the words Modelled from the spec.
-/

set_option autoImplicit false

namespace MStore

/-- A node of the store: the pair of child digests (struct Node in the source). -/
structure Node where
  left : Nat
  right : Nat
deriving DecidableEq

/-- Modelled from the spec: NodeIndex is a (depth, value) pair addressing one of
2 ^ depth positions at a given depth; validity (depth at most 64 and value
fitting in depth bits) is stated as hypotheses where a claim needs it. -/
structure NodeIndex where
  depth : Nat
  value : Nat
deriving DecidableEq

/-- The error kinds raised by the store (MerkleError in the source, restricted to
the constructors the analysed operations can produce). -/
inductive MerkleError where
  | RootNotInStore : Nat → MerkleError
  | NodeNotInStore : Nat → NodeIndex → MerkleError
  | DepthTooBig : Nat → MerkleError
  | InvalidIndex : Nat → Nat → MerkleError
deriving DecidableEq

/-- A leaf value together with its opening (ValuePath in the source). -/
structure ValuePath where
  value : Nat
  path : List Nat
deriving DecidableEq

/-- A root together with an opening (RootPath in the source). -/
structure RootPath where
  root : Nat
  path : List Nat
deriving DecidableEq

/-- The backend map of the store: an association list from digests to nodes,
kept sorted by key by minsert (modelling the BTreeMap backend). -/
abbrev MerkleMap := List (Nat × Node)

/-- Backend get: the first binding of the key, if any. -/
def mget : MerkleMap → Nat → Option Node
  | [], _ => none
  | kv :: rest, k => if k = kv.1 then some kv.2 else mget rest k

/-- Backend insert: replaces the value when the key is present, otherwise places
the new binding at its sorted position (BTreeMap insert). -/
def minsert : MerkleMap → Nat → Node → MerkleMap
  | [], k, v => [(k, v)]
  | kv :: rest, k, v =>
    if k < kv.1 then (k, v) :: kv :: rest
    else if k = kv.1 then (k, v) :: rest
    else kv :: minsert rest k v

/-- Keys of a backend map, in iteration order. -/
def keysOf (m : MerkleMap) : List Nat := m.map (fun kv => kv.1)

/-- Modelled from the spec: the external two-to-one compression function
(Rpo256::merge), an opaque collision-resistant function producing a parent
digest from two child digests; modelled as an injective pairing so that
distinct child pairs yield distinct parent digests. -/
def compress (l r : Nat) : Nat := if l = r then 2 * l + 2 else 2 * Nat.pair l r + 1

/-- Modelled from the spec: the empty-subtree digest for a fully empty subtree of
height h (EmptySubtreeRoots); the defining chain, height 0 being the default
digest and height h + 1 the compression of two height-h digests, is proved as
emptySub_zero and emptySub_succ below. -/
def emptySub (h : Nat) : Nat := 2 ^ (h + 1) - 2

/-- Modelled from the spec: EmptySubtreeRoots::empty_hashes(td) lists the
empty-subtree digests of a td-deep tree from depth 0 (the root) down to depth
td (the leaves); the digest at depth d is the empty digest of height td - d. -/
def emptyHashes (td : Nat) : List Nat := (List.range (td + 1)).map (fun d => emptySub (td - d))

/-- The empty_hashes function of the source: pairs each empty-subtree digest with
its parent along the 255-deep chain and emits (parent, Node(child, child)). -/
def empty_hashes : List (Nat × Node) :=
  let subtrees := emptyHashes 255
  (subtrees.reverse.zip (subtrees.reverse.drop 1)).map (fun cp => (cp.2, ⟨cp.1, cp.1⟩))

/-- GenericMerkleStore::new(): the backend collected from the empty_hashes chain. -/
def new_store : MerkleMap := empty_hashes.foldl (fun m kv => minsert m kv.1 kv.2) []

/-- The descent loop of get_node: with i levels remaining, looks up the current
digest and descends by bit i - 1 of the index value. -/
def get_node_loop (nodes : MerkleMap) (index : NodeIndex) : Nat → Nat → Except MerkleError Nat
  | hash, 0 => Except.ok hash
  | hash, i + 1 =>
    match mget nodes hash with
    | none => Except.error (MerkleError.NodeNotInStore hash index)
    | some node =>
      get_node_loop nodes index (if (index.value >>> i) % 2 = 0 then node.left else node.right) i

/-- GenericMerkleStore::get_node: checks the root is present, then descends
index.depth() levels reading bits of index.value() most significant first. -/
def get_node (nodes : MerkleMap) (root : Nat) (index : NodeIndex) : Except MerkleError Nat :=
  match mget nodes root with
  | none => Except.error (MerkleError.RootNotInStore root)
  | some _ => get_node_loop nodes index root index.depth

/-- The bits of value from position depth - 1 down to position 0, in that order
(most significant of the depth-bit window first), as the spec describes the
traversal order. -/
def bitsMSB (value depth : Nat) : List Bool := ((List.range depth).reverse).map value.testBit

/-- Spec-side descent: consume a list of direction bits, descending left on false
and right on true, failing when the current digest has no recorded node. -/
def descend (nodes : MerkleMap) (index : NodeIndex) : Nat → List Bool → Except MerkleError Nat
  | hash, [] => Except.ok hash
  | hash, b :: bs =>
    match mget nodes hash with
    | none => Except.error (MerkleError.NodeNotInStore hash index)
    | some node => descend nodes index (if b then node.right else node.left) bs

/-- Spec-side restatement of get_node, written from the words of the claim:
first the root membership check (also at depth 0), then a descent along the
most-significant-first bit list of the index. -/
def get_node_spec (nodes : MerkleMap) (root : Nat) (index : NodeIndex) : Except MerkleError Nat :=
  if (mget nodes root).isNone then Except.error (MerkleError.RootNotInStore root)
  else descend nodes index root (bitsMSB index.value index.depth)

/-- The descent loop of get_path: like get_node_loop but also collects, root to
leaf, the sibling not taken at each level. -/
def get_path_loop (nodes : MerkleMap) (index : NodeIndex) :
    Nat → Nat → Except MerkleError (Nat × List Nat)
  | hash, 0 => Except.ok (hash, [])
  | hash, i + 1 =>
    match mget nodes hash with
    | none => Except.error (MerkleError.NodeNotInStore hash index)
    | some node =>
      if (index.value >>> i) % 2 = 0 then
        match get_path_loop nodes index node.left i with
        | Except.error e => Except.error e
        | Except.ok vp => Except.ok (vp.1, node.right :: vp.2)
      else
        match get_path_loop nodes index node.right i with
        | Except.error e => Except.error e
        | Except.ok vp => Except.ok (vp.1, node.left :: vp.2)

/-- GenericMerkleStore::get_path: the same traversal as get_node, collecting the
sibling at each level; the collected root-to-leaf list is reversed before
being returned. -/
def get_path (nodes : MerkleMap) (root : Nat) (index : NodeIndex) :
    Except MerkleError ValuePath :=
  match mget nodes root with
  | none => Except.error (MerkleError.RootNotInStore root)
  | some _ =>
    match get_path_loop nodes index root index.depth with
    | Except.error e => Except.error e
    | Except.ok vp => Except.ok ⟨vp.1, vp.2.reverse⟩

/-- Bottom-up recomputation of a root from a leaf value and a leaf-to-root
sibling list: at each level the running digest is placed on the side selected
by the corresponding bit of the index value, least significant bit first. -/
def fold_path : Nat → List Nat → Nat → Nat
  | v, [], _ => v
  | v, s :: rest, bits => fold_path (if bits % 2 = 0 then compress v s else compress s v) rest (bits / 2)

/-- The data-model invariant of the spec: every binding of the map keys the
compression of its two children. -/
def hash_consistent (m : MerkleMap) : Prop := ∀ kv ∈ m, kv.1 = compress kv.2.left kv.2.right

/-- Modelled from the spec: the 64-bit bit-reversal used by get_leaf_depth to turn
the index into a root-to-leaf direction word (u64::reverse_bits). -/
def reverseBits64 (x : Nat) : Nat := (List.range 64).foldl (fun acc i => 2 * acc + (x >>> i) % 2) 0

/-- The descent loop of get_leaf_depth, with rem levels remaining and d levels
already descended: stops at the empty-subtree digest of the remaining height,
stops on a digest with no recorded node, and at the bottom fails DepthTooBig
when the digest still keys deeper structure. -/
def gld_loop (nodes : MerkleMap) (td : Nat) : Nat → Nat → Nat → Nat → Except MerkleError Nat
  | 0, _d, hash, _path =>
    if (mget nodes hash).isSome then Except.error (MerkleError.DepthTooBig (td + 1))
    else Except.ok td
  | rem + 1, d, hash, path =>
    if hash = emptySub (td - d) then Except.ok d
    else
      match mget nodes hash with
      | none => Except.ok d
      | some node =>
        gld_loop nodes td rem (d + 1) (if path % 2 = 0 then node.left else node.right) (path / 2)

/-- GenericMerkleStore::get_leaf_depth: validates the tree depth and the index,
returns 0 immediately for tree depth 0, checks the root is present, then
follows the bit-reversed index from the root reconstructing the effective
depth. -/
def get_leaf_depth (nodes : MerkleMap) (root : Nat) (td : Nat) (index : Nat) :
    Except MerkleError Nat :=
  if 64 < td then Except.error (MerkleError.DepthTooBig td)
  else if 2 ^ td ≤ index then Except.error (MerkleError.InvalidIndex td index)
  else if td = 0 then Except.ok 0
  else if (mget nodes root).isNone then Except.error (MerkleError.RootNotInStore root)
  else gld_loop nodes td td 0 root (reverseBits64 ((index * 2 ^ (64 - td)) % 2 ^ 64))

/-- An inner node reconstructed from a leaf and its sibling path: the parent
digest together with its two children (InnerNodeInfo in the source). -/
structure InnerNodeInfo where
  value : Nat
  left : Nat
  right : Nat
deriving DecidableEq

/-- Bottom-up derivation of the ancestor chain from a leaf value and its sibling
list: at each level the running digest is placed by the next index bit and
compressed with the sibling. -/
def inner_nodes_aux : Nat → Nat → List Nat → List InnerNodeInfo
  | _, _, [] => []
  | idx, v, s :: rest =>
    let info : InnerNodeInfo := if idx % 2 = 0 then ⟨compress v s, v, s⟩ else ⟨compress s v, s, v⟩
    info :: inner_nodes_aux (idx / 2) info.value rest

/-- Modelled from the spec: MerklePath::inner_nodes(index, node) first checks that
(path length, index) form a valid NodeIndex, failing with the index
construction error otherwise, then yields every ancestor node bottom-up. -/
def inner_nodes (idx : Nat) (v : Nat) (path : List Nat) :
    Except MerkleError (List InnerNodeInfo) :=
  if idx < 2 ^ path.length then Except.ok (inner_nodes_aux idx v path)
  else Except.error (MerkleError.InvalidIndex path.length idx)

/-- GenericMerkleStore::add_merkle_path: folds the reconstructed inner nodes,
inserting each into the backend, starting the root accumulator from the
default digest 0; returns the last derived value and the new backend. -/
def add_merkle_path (nodes : MerkleMap) (idx : Nat) (node : Nat) (path : List Nat) :
    Except MerkleError (Nat × MerkleMap) :=
  match inner_nodes idx node path with
  | Except.error e => Except.error e
  | Except.ok infos =>
    Except.ok (infos.foldl
      (fun acc info => (info.value, minsert acc.2 info.value ⟨info.left, info.right⟩)) (0, nodes))

/-- GenericMerkleStore::set_node: opens (root, index); when the new value differs
from the opening it reinserts the ancestor chain through add_merkle_path,
otherwise it leaves the backend untouched; returns the resulting root with
the unchanged sibling path. -/
def set_node (nodes : MerkleMap) (root : Nat) (index : NodeIndex) (value : Nat) :
    Except MerkleError (RootPath × MerkleMap) :=
  match get_path nodes root index with
  | Except.error e => Except.error e
  | Except.ok vp =>
    if value ≠ vp.value then
      match add_merkle_path nodes index.value value vp.path with
      | Except.error e => Except.error e
      | Except.ok rn => Except.ok (⟨rn.1, vp.path⟩, rn.2)
    else Except.ok (⟨root, vp.path⟩, nodes)

/-- GenericMerkleStore::merge_roots: compresses the two digests, inserts the pair
as the children of the result, and returns it with the new backend (the
source wraps this in an always-Ok Result). -/
def merge_roots (nodes : MerkleMap) (l r : Nat) : Nat × MerkleMap :=
  (compress l r, minsert nodes (compress l r) ⟨l, r⟩)

/-- The fuel given to the recursive reachability copy; one more than the source
size, which bounds the copy depth since every recursive call first inserts a
previously absent source key into the destination. -/
def cloneFuel (src : MerkleMap) : Nat := src.length + 1

/-- GenericMerkleStore::clone_tree_from: if the root keys a node of the source,
insert it into the destination and, when the key was not already present
there, recurse into both children. -/
def clone_tree_from : Nat → MerkleMap → MerkleMap → Nat → MerkleMap
  | 0, _, dest, _ => dest
  | fuel + 1, src, dest, root =>
    match mget src root with
    | none => dest
    | some node =>
      match mget dest root with
      | some _ => minsert dest root node
      | none =>
        clone_tree_from fuel src (clone_tree_from fuel src (minsert dest root node) node.left)
          node.right

/-- GenericMerkleStore::subset: clones the tree under each requested root from
the source into a freshly constructed (hence bootstrap-populated) store. -/
def subset (src : MerkleMap) (roots : List Nat) : MerkleMap :=
  roots.foldl (fun dest root => clone_tree_from (cloneFuel src) src dest root) new_store

/-- The number of source keys still absent from the destination; the decreasing
measure of the reachability copy. -/
def freshCount (src dest : MerkleMap) : Nat :=
  ((keysOf src).filter (fun a => (mget dest a).isNone)).length

/-- Visited src B r k holds when the reachability copy from root r out of source
src, into a destination whose key set starts as that of B, visits the key k
(and therefore gives it the value src k). A key already bound in B is copied
when reached but blocks further descent below it. -/
inductive Visited (src B : MerkleMap) (r : Nat) : Nat → Prop
  | root : (mget src r).isSome = true → Visited src B r r
  | step (k c : Nat) (n : Node) : Visited src B r k → mget B k = none →
      mget src k = some n → (c = n.left ∨ c = n.right) → (mget src c).isSome = true →
      Visited src B r c

/-- One serialization token: either a length word (write_u64) or an encoded
digest (the fixed-width digest encoding). -/
inductive STok where
  | word : Nat → STok
  | dig : Nat → STok
deriving DecidableEq

/-- The byte stream of the bindings in iteration order: each binding written as
its key digest, then its node (left child then right child). -/
def write_entries : MerkleMap → List STok
  | [] => []
  | kv :: t => STok.dig kv.1 :: STok.dig kv.2.left :: STok.dig kv.2.right :: write_entries t

/-- Serializable for GenericMerkleStore: the node count followed by each binding
in iteration order, a node written left child then right child. -/
def store_write (s : MerkleMap) : List STok :=
  STok.word s.length :: write_entries s

/-- Modelled from the spec: reading one fixed-width digest from the stream, which
fails on truncation or on a token of the wrong shape. -/
def read_dig : List STok → Option (Nat × List STok)
  | STok.dig d :: rest => some (d, rest)
  | _ => none

/-- The decode loop: reads the given number of (key, node) bindings, inserting
each into the accumulator. -/
def store_read_loop : Nat → MerkleMap → List STok → Option MerkleMap
  | 0, acc, _ => some acc
  | n + 1, acc, toks =>
    match read_dig toks with
    | none => none
    | some kt =>
      match read_dig kt.2 with
      | none => none
      | some lt =>
        match read_dig lt.2 with
        | none => none
        | some rt => store_read_loop n (minsert acc kt.1 ⟨lt.1, rt.1⟩) rt.2

/-- Deserializable for GenericMerkleStore over the plain backend: reads the
count, then that many bindings into a fresh empty map; no bootstrap entries
are added beyond the encoded data. -/
def store_read : List STok → Option MerkleMap
  | STok.word len :: rest => store_read_loop len [] rest
  | _ => none

/-- Strict key-sortedness of a backend map, the invariant of the BTreeMap
iteration order. -/
def sortedKeys : MerkleMap → Bool
  | [] => true
  | [_] => true
  | a :: b :: t => decide (a.1 < b.1) && sortedKeys (b :: t)

-- ===============================================================================================
-- Basic lemmas about the backend map
-- ===============================================================================================

theorem mget_minsert_self (m : MerkleMap) (k : Nat) (v : Node) :
    mget (minsert m k v) k = some v := by
  induction m with
  | nil => simp [minsert, mget]
  | cons kv rest ih =>
    obtain ⟨k0, v0⟩ := kv
    by_cases h1 : k < k0
    · simp [minsert, h1, mget]
    · by_cases h2 : k = k0
      · simp [minsert, h1, h2, mget]
      · simp [minsert, h1, h2, mget, ih]

theorem mget_minsert_ne (m : MerkleMap) (k k' : Nat) (v : Node) (h : k' ≠ k) :
    mget (minsert m k v) k' = mget m k' := by
  induction m with
  | nil => simp [minsert, mget, h]
  | cons kv rest ih =>
    obtain ⟨k0, v0⟩ := kv
    by_cases h1 : k < k0
    · simp [minsert, h1, mget, h]
    · by_cases h2 : k = k0
      · subst h2
        simp [minsert, h1, mget, h]
      · simp [minsert, h1, h2, mget, ih]

theorem mget_mem {m : MerkleMap} {k : Nat} {n : Node} (h : mget m k = some n) : (k, n) ∈ m := by
  induction m with
  | nil => simp [mget] at h
  | cons kv rest ih =>
    obtain ⟨k0, v0⟩ := kv
    rw [mget] at h
    by_cases h1 : k = k0
    · subst h1
      rw [if_pos rfl] at h
      injection h with h2
      subst h2
      exact List.mem_cons_self _ _
    · rw [if_neg h1] at h
      exact List.mem_cons_of_mem _ (ih h)

theorem mget_minsert_isSome {m : MerkleMap} {a k : Nat} {v : Node}
    (h : (mget m a).isSome = true) : (mget (minsert m k v) a).isSome = true := by
  by_cases hak : a = k
  · subst hak
    rw [mget_minsert_self]
    rfl
  · rw [mget_minsert_ne m k a v hak]
    exact h

-- ===============================================================================================
-- The empty-subtree chain
-- ===============================================================================================

theorem emptySub_zero : emptySub 0 = 0 := by norm_num [emptySub]

theorem two_le_two_pow (n : Nat) : 2 ≤ 2 ^ (n + 1) := by
  calc 2 = 2 ^ 1 := rfl
  _ ≤ 2 ^ (n + 1) := Nat.pow_le_pow_right (by norm_num) (by omega)

theorem emptySub_succ (h : Nat) : emptySub (h + 1) = compress (emptySub h) (emptySub h) := by
  have h2 := two_le_two_pow h
  have hp : 2 ^ (h + 1 + 1) = 2 * 2 ^ (h + 1) := by
    rw [pow_succ]
    ring
  rw [compress, if_pos rfl]
  simp only [emptySub]
  omega

-- ===============================================================================================
-- C8: tree depths above 64 always fail DepthTooBig
-- ===============================================================================================

/-- C8: for every store, root and index, a tree depth strictly greater than 64
makes get_leaf_depth fail with DepthTooBig carrying that depth, regardless of
whether the root is present or the index otherwise valid. -/
theorem get_leaf_depth_depth_too_big (nodes : MerkleMap) (root : Nat) (td : Nat) (index : Nat)
    (h : 64 < td) :
    get_leaf_depth nodes root td index = Except.error (MerkleError.DepthTooBig td) := by
  rw [get_leaf_depth, if_pos h]

theorem get_leaf_depth_depth_too_big_witness :
    get_leaf_depth new_store 0 65 0 = Except.error (MerkleError.DepthTooBig 65) :=
  get_leaf_depth_depth_too_big new_store 0 65 0 (by norm_num)

-- ===============================================================================================
-- C7: merge_roots
-- ===============================================================================================

/-- C7: for all digests, merge_roots returns the compression of its arguments,
binds that digest to the node of the two inputs, and afterwards get_node at
depth 1 returns the left input at value 0 and the right input at value 1. -/
theorem merge_roots_ok (nodes : MerkleMap) (l r : Nat) :
    (merge_roots nodes l r).1 = compress l r ∧
    mget (merge_roots nodes l r).2 (compress l r) = some ⟨l, r⟩ ∧
    get_node (merge_roots nodes l r).2 (compress l r) ⟨1, 0⟩ = Except.ok l ∧
    get_node (merge_roots nodes l r).2 (compress l r) ⟨1, 1⟩ = Except.ok r := by
  refine ⟨rfl, mget_minsert_self _ _ _, ?_, ?_⟩
  · simp [get_node, merge_roots, mget_minsert_self, get_node_loop]
  · simp [get_node, merge_roots, mget_minsert_self, get_node_loop]

-- ===============================================================================================
-- C10: add_merkle_path with an empty sibling list
-- ===============================================================================================

/-- C10 counterexample: with an empty sibling list and index 1 the operation does
not succeed with the default digest; it fails with the index construction
error, because only index 0 is valid for a zero-length path. -/
theorem add_merkle_path_empty_counterexample :
    add_merkle_path [] 1 5 [] = Except.error (MerkleError.InvalidIndex 0 1) := rfl

/-- C10 amended: with an empty sibling list, add_merkle_path succeeds exactly for
index 0 (the only index valid at depth 0), and then returns the default
digest 0 rather than the supplied leaf, inserting nothing; any other index
fails with the index construction error. -/
theorem add_merkle_path_empty (nodes : MerkleMap) (idx : Nat) (leaf : Nat) :
    add_merkle_path nodes idx leaf [] =
      if idx = 0 then Except.ok (0, nodes) else Except.error (MerkleError.InvalidIndex 0 idx) := by
  by_cases h : idx = 0
  · subst h
    rfl
  · have hlt : ¬ idx < 2 ^ (List.length ([] : List Nat)) := by
      simp only [List.length_nil, pow_zero]
      omega
    simp [add_merkle_path, inner_nodes, hlt, h]

-- ===============================================================================================
-- C6: set_node no-op fast path
-- ===============================================================================================

/-- C6: when the opening at (root, index) already carries the supplied value,
set_node returns the input root together with the unchanged sibling path and
leaves the backend exactly as it was. -/
theorem set_node_noop (nodes : MerkleMap) (root : Nat) (index : NodeIndex) (v : Nat)
    (p : List Nat) (h : get_path nodes root index = Except.ok ⟨v, p⟩) :
    set_node nodes root index v = Except.ok (⟨root, p⟩, nodes) := by
  simp [set_node, h]

theorem set_node_noop_witness :
    set_node [(109, ⟨5, 7⟩)] 109 ⟨1, 0⟩ 5 = Except.ok (⟨109, [7]⟩, [(109, ⟨5, 7⟩)]) :=
  set_node_noop [(109, ⟨5, 7⟩)] 109 ⟨1, 0⟩ 5 [7] (by rfl)

-- ===============================================================================================
-- C1: get_node refines the spec-side description
-- ===============================================================================================

theorem testBit_branch (v i : Nat) (a b : Nat) :
    (if v.testBit i then a else b) = (if (v >>> i) % 2 = 0 then b else a) := by
  rcases Nat.mod_two_eq_zero_or_one (v >>> i) with h | h
  · have : v.testBit i = false := by
      rw [Nat.testBit_to_div_mod]
      rw [Nat.shiftRight_eq_div_pow] at h
      simp [h]
    simp [this, h]
  · have : v.testBit i = true := by
      rw [Nat.testBit_to_div_mod]
      rw [Nat.shiftRight_eq_div_pow] at h
      simp [h]
    simp [this, h]

theorem get_node_loop_eq_descend (nodes : MerkleMap) (index : NodeIndex) :
    ∀ (i : Nat) (hash : Nat),
      get_node_loop nodes index hash i =
        descend nodes index hash (((List.range i).reverse).map index.value.testBit) := by
  intro i
  induction i with
  | zero => intro hash; rfl
  | succ i ih =>
    intro hash
    rw [List.range_succ]
    simp only [List.reverse_append, List.reverse_cons, List.reverse_nil, List.nil_append,
      List.singleton_append, List.map_cons]
    cases hn : mget nodes hash with
    | none => simp only [get_node_loop, descend, hn]
    | some node =>
      simp only [get_node_loop, descend, hn]
      rw [ih, testBit_branch]

/-- C1: get_node coincides with the specified algorithm: the root membership
check comes first and fails RootNotInStore even at depth 0; then index.depth()
descent steps read the bits of index.value() from most significant to least
significant, failing NodeNotInStore(hash, index) at a digest with no recorded
node, descending left on 0 and right on 1, and the digest reached is
returned. -/
theorem get_node_matches_spec (nodes : MerkleMap) (root : Nat) (index : NodeIndex)
    (_hd : index.depth ≤ 64) (_hv : index.value < 2 ^ index.depth) :
    get_node nodes root index = get_node_spec nodes root index := by
  cases h : mget nodes root with
  | none => simp [get_node, get_node_spec, h]
  | some n => simp [get_node, get_node_spec, h, bitsMSB, get_node_loop_eq_descend]

theorem get_node_matches_spec_witness :
    get_node [(109, ⟨5, 7⟩)] 109 ⟨1, 1⟩ = get_node_spec [(109, ⟨5, 7⟩)] 109 ⟨1, 1⟩ :=
  get_node_matches_spec [(109, ⟨5, 7⟩)] 109 ⟨1, 1⟩ (by norm_num) (by norm_num)

-- ===============================================================================================
-- C5: get_path openings recombine to the root
-- ===============================================================================================

theorem get_path_loop_length (nodes : MerkleMap) (index : NodeIndex) :
    ∀ (i hash v : Nat) (p : List Nat),
      get_path_loop nodes index hash i = Except.ok (v, p) → p.length = i := by
  intro i
  induction i with
  | zero =>
    intro hash v p h
    simp only [get_path_loop, Except.ok.injEq, Prod.mk.injEq] at h
    rw [← h.2]
    rfl
  | succ i ih =>
    intro hash v p h
    cases hn : mget nodes hash with
    | none =>
      simp only [get_path_loop, hn] at h
      exact Except.noConfusion h
    | some node =>
      simp only [get_path_loop, hn] at h
      by_cases hb : (index.value >>> i) % 2 = 0
      · rw [if_pos hb] at h
        cases hr : get_path_loop nodes index node.left i with
        | error e => rw [hr] at h; simp at h
        | ok vp =>
          rw [hr] at h
          simp only [Except.ok.injEq, Prod.mk.injEq] at h
          rw [← h.2, List.length_cons, ih node.left vp.1 vp.2 hr]
      · rw [if_neg hb] at h
        cases hr : get_path_loop nodes index node.right i with
        | error e => rw [hr] at h; simp at h
        | ok vp =>
          rw [hr] at h
          simp only [Except.ok.injEq, Prod.mk.injEq] at h
          rw [← h.2, List.length_cons, ih node.right vp.1 vp.2 hr]

theorem fold_path_append (v : Nat) (xs : List Nat) (s : Nat) (bits : Nat) :
    fold_path v (xs ++ [s]) bits =
      if (bits / 2 ^ xs.length) % 2 = 0 then compress (fold_path v xs bits) s
      else compress s (fold_path v xs bits) := by
  induction xs generalizing v bits with
  | nil => simp [fold_path]
  | cons x xs ih =>
    simp only [List.cons_append, fold_path, List.length_cons, List.append_eq]
    rw [ih]
    have hdiv : bits / 2 / 2 ^ xs.length = bits / 2 ^ (xs.length + 1) := by
      rw [Nat.div_div_eq_div_mul, pow_succ, Nat.mul_comm]
    rw [hdiv]

theorem get_path_loop_fold (nodes : MerkleMap) (index : NodeIndex)
    (hc : hash_consistent nodes) :
    ∀ (i hash v : Nat) (p : List Nat),
      get_path_loop nodes index hash i = Except.ok (v, p) →
      fold_path v p.reverse index.value = hash := by
  intro i
  induction i with
  | zero =>
    intro hash v p h
    simp only [get_path_loop, Except.ok.injEq, Prod.mk.injEq] at h
    rw [← h.1, ← h.2]
    rfl
  | succ i ih =>
    intro hash v p h
    cases hn : mget nodes hash with
    | none =>
      simp only [get_path_loop, hn] at h
      exact Except.noConfusion h
    | some node =>
      simp only [get_path_loop, hn] at h
      have hkey := hc (hash, node) (mget_mem hn)
      by_cases hb : (index.value >>> i) % 2 = 0
      · rw [if_pos hb] at h
        cases hr : get_path_loop nodes index node.left i with
        | error e => rw [hr] at h; simp at h
        | ok vp =>
          rw [hr] at h
          simp only [Except.ok.injEq, Prod.mk.injEq] at h
          obtain ⟨h1, h2⟩ := h
          subst h1
          subst h2
          rw [List.reverse_cons, fold_path_append, List.length_reverse,
            get_path_loop_length nodes index i node.left vp.1 vp.2 hr]
          have hbit : (index.value / 2 ^ i) % 2 = 0 := by
            rw [← Nat.shiftRight_eq_div_pow]
            exact hb
          rw [if_pos hbit, ih node.left vp.1 vp.2 hr]
          exact hkey.symm
      · rw [if_neg hb] at h
        cases hr : get_path_loop nodes index node.right i with
        | error e => rw [hr] at h; simp at h
        | ok vp =>
          rw [hr] at h
          simp only [Except.ok.injEq, Prod.mk.injEq] at h
          obtain ⟨h1, h2⟩ := h
          subst h1
          subst h2
          rw [List.reverse_cons, fold_path_append, List.length_reverse,
            get_path_loop_length nodes index i node.right vp.1 vp.2 hr]
          have hbit : ¬ (index.value / 2 ^ i) % 2 = 0 := by
            rw [← Nat.shiftRight_eq_div_pow]
            exact hb
          rw [if_neg hbit, ih node.right vp.1 vp.2 hr]
          exact hkey.symm

/-- C5: over a hash-consistent store (the data-model invariant the spec states
for every node produced by tree construction or path insertion), whenever
get_path succeeds, folding the returned leaf value with the sibling digests
bottom-up through the compression function, placing the running digest on the
side selected by the corresponding bit of index.value() least significant bit
first, reproduces the supplied root. -/
theorem get_path_fold_root (nodes : MerkleMap) (root : Nat) (index : NodeIndex)
    (v : Nat) (p : List Nat) (hc : hash_consistent nodes)
    (h : get_path nodes root index = Except.ok ⟨v, p⟩) :
    fold_path v p index.value = root := by
  cases hn : mget nodes root with
  | none =>
    simp only [get_path, hn] at h
    exact Except.noConfusion h
  | some n0 =>
    simp only [get_path, hn] at h
    cases hr : get_path_loop nodes index root index.depth with
    | error e => rw [hr] at h; simp at h
    | ok vp =>
      rw [hr] at h
      simp only [Except.ok.injEq, ValuePath.mk.injEq] at h
      obtain ⟨h1, h2⟩ := h
      subst h1
      subst h2
      exact get_path_loop_fold nodes index hc index.depth root vp.1 vp.2 hr

theorem get_path_fold_root_witness : fold_path 5 [7] 0 = 109 :=
  get_path_fold_root [(109, ⟨5, 7⟩)] 109 ⟨1, 0⟩ 5 [7]
    (by
      intro kv hkv
      rw [List.mem_singleton] at hkv
      subst hkv
      decide)
    (by rfl)

-- ===============================================================================================
-- C9: serialization round trip
-- ===============================================================================================

theorem minsert_append_of_lt (m : MerkleMap) (k : Nat) (v : Node)
    (h : ∀ kv ∈ m, kv.1 < k) : minsert m k v = m ++ [(k, v)] := by
  induction m with
  | nil => rfl
  | cons kv rest ih =>
    have hk := h kv (List.mem_cons_self _ _)
    have h1 : ¬ k < kv.1 := by omega
    have h2 : ¬ k = kv.1 := by omega
    simp [minsert, h1, h2, ih (fun kv' hkv' => h kv' (List.mem_cons_of_mem _ hkv'))]

theorem sorted_cons : ∀ (a : Nat × Node) (s : MerkleMap), sortedKeys (a :: s) = true →
    sortedKeys s = true ∧ ∀ kv ∈ s, a.1 < kv.1 := by
  intro a s
  induction s generalizing a with
  | nil => intro _; exact ⟨rfl, by simp⟩
  | cons b t ih =>
    intro h
    rw [sortedKeys] at h
    simp only [Bool.and_eq_true, decide_eq_true_eq] at h
    obtain ⟨hab, hbt⟩ := h
    have hb := ih b hbt
    refine ⟨hbt, ?_⟩
    intro kv hkv
    rcases List.mem_cons.mp hkv with rfl | hmem
    · exact hab
    · exact lt_trans hab (hb.2 kv hmem)

theorem store_read_loop_write (rest : List STok) :
    ∀ (s acc : MerkleMap), sortedKeys s = true →
      (∀ kv ∈ acc, ∀ kv' ∈ s, kv.1 < kv'.1) →
      store_read_loop s.length acc (write_entries s ++ rest) = some (acc ++ s) := by
  intro s
  induction s with
  | nil =>
    intro acc _ _
    simp [write_entries, store_read_loop]
  | cons kv t ih =>
    intro acc hs hlt
    obtain ⟨k, v⟩ := kv
    have hsorted := sorted_cons (k, v) t hs
    have hins : minsert acc k v = acc ++ [(k, v)] :=
      minsert_append_of_lt acc k v (fun kv' hkv' => hlt kv' hkv' (k, v) (List.mem_cons_self _ _))
    simp only [List.length_cons, write_entries, List.cons_append, store_read_loop, read_dig]
    rw [hins,
      ih (acc ++ [(k, v)]) hsorted.1 ?_]
    · rw [List.append_assoc, List.singleton_append]
    · intro kv' hkv' kv'' hkv''
      rcases List.mem_append.mp hkv' with h1 | h1
      · exact hlt kv' h1 kv'' (List.mem_cons_of_mem _ hkv'')
      · rw [List.mem_singleton] at h1
        subst h1
        exact hsorted.2 kv'' hkv''

/-- C9: for every plain-backend store whose backing list is strictly sorted by
key (the BTreeMap iteration-order invariant), decoding the encoding (a node
count followed by the bindings in iteration order) yields exactly the same
node map; the decoder starts from an empty map and adds no bootstrap entries
beyond the encoded data. -/
theorem store_round_trip (s : MerkleMap) (hs : sortedKeys s = true) :
    store_read (store_write s) = some s := by
  have h := store_read_loop_write [] s [] hs (by simp)
  simp only [List.append_nil, List.nil_append] at h
  simp only [store_write, store_read]
  exact h

theorem store_round_trip_witness :
    store_read (store_write [(1, ⟨2, 3⟩), (5, ⟨0, 1⟩)]) = some [(1, ⟨2, 3⟩), (5, ⟨0, 1⟩)] :=
  store_round_trip [(1, ⟨2, 3⟩), (5, ⟨0, 1⟩)] (by decide)

-- ===============================================================================================
-- C4: the freshly constructed store
-- ===============================================================================================

set_option maxRecDepth 10000 in
theorem new_store_eq_explicit :
    new_store =
      (List.range 255).map
        (fun h => ((emptySub (h + 1) : Nat), (⟨emptySub h, emptySub h⟩ : Node))) := by
  decide

theorem emptySub_strictMono : StrictMono emptySub := by
  intro a b hab
  have hpow : 2 ^ (a + 1) < 2 ^ (b + 1) := Nat.pow_lt_pow_right (by norm_num) (by omega)
  have h2 := two_le_two_pow a
  simp only [emptySub]
  omega

theorem mem_mget_of_nodup :
    ∀ (m : MerkleMap), (keysOf m).Nodup →
      ∀ (k : Nat) (n : Node), (k, n) ∈ m → mget m k = some n := by
  intro m
  induction m with
  | nil =>
    intro _ k n hmem
    simp at hmem
  | cons kv rest ih =>
    intro hnd k n hmem
    obtain ⟨k0, v0⟩ := kv
    rw [keysOf, List.map_cons, List.nodup_cons] at hnd
    rcases List.mem_cons.mp hmem with heq | hmem'
    · simp only [Prod.mk.injEq] at heq
      obtain ⟨rfl, rfl⟩ := heq
      rw [mget, if_pos rfl]
    · have hk : k ≠ k0 := by
        intro hkk
        subst hkk
        exact hnd.1 (List.mem_map.mpr ⟨(k, n), hmem', rfl⟩)
      rw [mget, if_neg hk]
      exact ih hnd.2 k n hmem'

theorem mget_eq_some_iff_of_nodup (m : MerkleMap) (hnd : (keysOf m).Nodup) (k : Nat) (n : Node) :
    mget m k = some n ↔ (k, n) ∈ m :=
  ⟨mget_mem, mem_mget_of_nodup m hnd k n⟩

/-- C4 counterexample: the freshly constructed store holds 255 synthetic entries,
not 254 as claimed (the source's own doc test asserts 255 as well). -/
theorem new_store_count_counterexample : new_store.length = 255 := by
  rw [new_store_eq_explicit]
  simp

theorem explicit_keys_nodup :
    (keysOf ((List.range 255).map
      (fun h => ((emptySub (h + 1) : Nat), (⟨emptySub h, emptySub h⟩ : Node))))).Nodup := by
  have hinj : Function.Injective (fun h : Nat => emptySub (h + 1)) := by
    intro a b hab
    have h1 : a + 1 = b + 1 := emptySub_strictMono.injective hab
    omega
  simp only [keysOf, List.map_map, Function.comp]
  exact List.Nodup.map hinj (List.nodup_range 255)

/-- C4 amended: a newly constructed store contains exactly 255 synthetic entries:
for every h below 255 the empty-subtree digest of height h + 1 (depth 254 - h
of the 255-deep chain) maps to a node whose two children both equal the
empty-subtree digest of height h, and there are no other entries. -/
theorem new_store_char :
    new_store.length = 255 ∧
    ∀ (k : Nat) (n : Node),
      mget new_store k = some n ↔
        ∃ h, h < 255 ∧ k = emptySub (h + 1) ∧ n = Node.mk (emptySub h) (emptySub h) := by
  constructor
  · rw [new_store_eq_explicit]
    simp
  · intro k n
    rw [new_store_eq_explicit, mget_eq_some_iff_of_nodup]
    · constructor
      · intro hmem
        obtain ⟨h, hh, heq⟩ := List.mem_map.mp hmem
        simp only [Prod.mk.injEq] at heq
        exact ⟨h, List.mem_range.mp hh, heq.1.symm, heq.2.symm⟩
      · rintro ⟨h, hh, rfl, rfl⟩
        exact List.mem_map.mpr ⟨h, List.mem_range.mpr hh, rfl⟩
    · exact explicit_keys_nodup

-- ===============================================================================================
-- C3: RootNotInStore precedence
-- ===============================================================================================

/-- C3 counterexample: with tree depth 0 and a root that is not a key of the
backend, get_leaf_depth succeeds with depth 0 instead of failing with
RootNotInStore, so not every accepted read fails on an absent root. -/
theorem get_leaf_depth_zero_counterexample :
    mget ([] : MerkleMap) 0 = none ∧ get_leaf_depth [] 0 0 0 = Except.ok 0 :=
  ⟨rfl, rfl⟩

/-- C3 amended: when the supplied root digest is not a key of the backend,
get_node and get_path always fail with RootNotInStore of that root before any
traversal step, and so does get_leaf_depth for every accepted tree depth from
1 to 64 with a valid index; with tree depth 0, however, get_leaf_depth
returns depth 0 without consulting the store. -/
theorem root_not_in_store_first (nodes : MerkleMap) (root : Nat) (index : NodeIndex)
    (td iv : Nat) (hroot : mget nodes root = none) :
    get_node nodes root index = Except.error (MerkleError.RootNotInStore root) ∧
    get_path nodes root index = Except.error (MerkleError.RootNotInStore root) ∧
    (1 ≤ td → td ≤ 64 → iv < 2 ^ td →
      get_leaf_depth nodes root td iv = Except.error (MerkleError.RootNotInStore root)) ∧
    (td = 0 → iv < 2 ^ td → get_leaf_depth nodes root td iv = Except.ok 0) := by
  refine ⟨?_, ?_, ?_, ?_⟩
  · simp [get_node, hroot]
  · simp [get_path, hroot]
  · intro h1 h64 hiv
    have hn64 : ¬ 64 < td := by omega
    have hn2 : ¬ 2 ^ td ≤ iv := by omega
    have hn0 : ¬ td = 0 := by omega
    simp [get_leaf_depth, hn64, hn2, hn0, hroot]
  · intro h0 hiv
    subst h0
    have hn64 : ¬ (64 : Nat) < 0 := by omega
    have hn2 : ¬ 2 ^ (0 : Nat) ≤ iv := by omega
    simp [get_leaf_depth, hn64, hn2]
    omega

theorem root_not_in_store_first_witness :
    get_node [] 0 ⟨0, 0⟩ = Except.error (MerkleError.RootNotInStore 0) ∧
    get_path [] 0 ⟨0, 0⟩ = Except.error (MerkleError.RootNotInStore 0) ∧
    get_leaf_depth [] 0 1 0 = Except.error (MerkleError.RootNotInStore 0) := by
  have h := root_not_in_store_first [] 0 ⟨0, 0⟩ 1 0 rfl
  exact ⟨h.1, h.2.1, h.2.2.1 (by norm_num) (by norm_num) (by norm_num)⟩

-- ===============================================================================================
-- C2: helper lemmas for the reachability copy
-- ===============================================================================================

theorem filter_length_le (l : List Nat) (p q : Nat → Bool)
    (himp : ∀ a, q a = true → p a = true) :
    (l.filter q).length ≤ (l.filter p).length := by
  induction l with
  | nil => simp
  | cons b t ih =>
    by_cases hqb : q b = true
    · have hpb := himp b hqb
      simp only [List.filter_cons, hqb, hpb, if_true, List.length_cons]
      omega
    · have hqb' : q b = false := by
        cases hx : q b with
        | false => rfl
        | true => exact absurd hx hqb
      by_cases hpb : p b = true
      · simp only [List.filter_cons, hqb', hpb, if_true, Bool.false_eq_true, if_false,
          List.length_cons]
        omega
      · have hpb' : p b = false := by
          cases hx : p b with
          | false => rfl
          | true => exact absurd hx hpb
        simp only [List.filter_cons, hqb', hpb', Bool.false_eq_true, if_false]
        exact ih

theorem filter_length_lt (l : List Nat) (p q : Nat → Bool)
    (himp : ∀ a, q a = true → p a = true) (a0 : Nat) (ha0 : a0 ∈ l)
    (hp : p a0 = true) (hq : q a0 = false) :
    (l.filter q).length < (l.filter p).length := by
  induction l with
  | nil => simp at ha0
  | cons b t ih =>
    rcases List.mem_cons.mp ha0 with rfl | hmem
    · simp only [List.filter_cons, hp, hq, if_true, Bool.false_eq_true, if_false,
        List.length_cons]
      exact Nat.lt_succ_of_le (filter_length_le t p q himp)
    · by_cases hqb : q b = true
      · have hpb := himp b hqb
        simp only [List.filter_cons, hqb, hpb, if_true, List.length_cons]
        exact Nat.succ_lt_succ (ih hmem)
      · have hqb' : q b = false := by
          cases hx : q b with
          | false => rfl
          | true => exact absurd hx hqb
        by_cases hpb : p b = true
        · simp only [List.filter_cons, hqb', hpb, if_true, Bool.false_eq_true, if_false,
            List.length_cons]
          exact Nat.lt_succ_of_lt (ih hmem)
        · have hpb' : p b = false := by
            cases hx : p b with
            | false => rfl
            | true => exact absurd hx hpb
          simp only [List.filter_cons, hqb', hpb', Bool.false_eq_true, if_false]
          exact ih hmem

theorem freshCount_le (src dest : MerkleMap) : freshCount src dest ≤ src.length := by
  calc ((keysOf src).filter (fun a => (mget dest a).isNone)).length
      ≤ (keysOf src).length := List.length_filter_le _ _
  _ = src.length := by simp [keysOf]

theorem freshCount_insert_lt (src dest : MerkleMap) (r : Nat) (n : Node)
    (hsr : mget src r = some n) (hdr : mget dest r = none) :
    freshCount src (minsert dest r n) < freshCount src dest := by
  apply filter_length_lt (keysOf src) (fun a => (mget dest a).isNone)
    (fun a => (mget (minsert dest r n) a).isNone) ?_ r ?_ ?_ ?_
  · intro a ha
    have ha' : (mget (minsert dest r n) a).isNone = true := ha
    show (mget dest a).isNone = true
    by_cases har : a = r
    · subst har
      rw [mget_minsert_self] at ha'
      exact Bool.noConfusion ha'
    · rw [mget_minsert_ne _ _ _ _ har] at ha'
      exact ha'
  · exact List.mem_map.mpr ⟨(r, n), mget_mem hsr, rfl⟩
  · show (mget dest r).isNone = true
    rw [hdr]
    rfl
  · show (mget (minsert dest r n) r).isNone = false
    rw [mget_minsert_self]
    rfl

theorem clone_mono :
    ∀ (fuel : Nat) (src dest : MerkleMap) (root k : Nat),
      (mget dest k).isSome = true →
      (mget (clone_tree_from fuel src dest root) k).isSome = true := by
  intro fuel
  induction fuel with
  | zero =>
    intro src dest root k h
    exact h
  | succ fuel ih =>
    intro src dest root k h
    cases hsr : mget src root with
    | none => simpa [clone_tree_from, hsr] using h
    | some node =>
      cases hdr : mget dest root with
      | some old =>
        simp only [clone_tree_from, hsr, hdr]
        exact mget_minsert_isSome h
      | none =>
        simp only [clone_tree_from, hsr, hdr]
        exact ih _ _ _ _ (ih _ _ _ _ (mget_minsert_isSome h))

theorem freshCount_clone_le (fuel : Nat) (src dest : MerkleMap) (root : Nat) :
    freshCount src (clone_tree_from fuel src dest root) ≤ freshCount src dest := by
  apply filter_length_le
  intro a ha
  cases hda : mget dest a with
  | none => rfl
  | some w =>
    have hs := clone_mono fuel src dest root a (by rw [hda]; rfl)
    cases hx : mget (clone_tree_from fuel src dest root) a with
    | none =>
      rw [hx] at hs
      exact Bool.noConfusion hs
    | some w' =>
      rw [hx] at ha
      exact Bool.noConfusion ha

theorem visited_src_root (src B : MerkleMap) (r k : Nat) (h : Visited src B r k) :
    (mget src r).isSome = true := by
  induction h with
  | root h0 => exact h0
  | step k0 c n hk hbk hsk hc hcs ihk => exact ihk

theorem visited_src (src B : MerkleMap) (r k : Nat) (h : Visited src B r k) :
    (mget src k).isSome = true := by
  induction h with
  | root h0 => exact h0
  | step k0 c n hk hbk hsk hc hcs ihk => exact hcs

theorem visited_blocked (src B : MerkleMap) (r k : Nat)
    (hb : (mget B r).isSome = true) (h : Visited src B r k) : k = r := by
  induction h with
  | root h0 => rfl
  | step k0 c n hk hbk hsk hc hcs ihk =>
    subst ihk
    rw [hbk] at hb
    exact Bool.noConfusion hb

theorem visited_anti (src B B' : MerkleMap)
    (h : ∀ a, mget B' a = none → mget B a = none) (r k : Nat)
    (hv : Visited src B' r k) : Visited src B r k := by
  induction hv with
  | root h0 => exact Visited.root h0
  | step k0 c n hk hbk hsk hc hcs ihk =>
    exact Visited.step k0 c n ihk (h k0 hbk) hsk hc hcs

theorem visited_child (src B : MerkleMap) (r : Nat) (n : Node) (c0 : Nat)
    (hsr : mget src r = some n) (hbr : mget B r = none) (hc0 : c0 = n.left ∨ c0 = n.right) :
    ∀ k, Visited src (minsert B r n) c0 k → Visited src B r k := by
  intro k hv
  induction hv with
  | root h0 =>
    exact Visited.step r c0 n (Visited.root (by rw [hsr]; rfl)) hbr hsr hc0 h0
  | step k0 c n0 hk hbk hsk hc hcs ihk =>
    have hbk' : mget B k0 = none := by
      by_cases hkr : k0 = r
      · subst hkr
        rw [mget_minsert_self] at hbk
        exact Option.noConfusion hbk
      · rw [mget_minsert_ne _ _ _ _ hkr] at hbk
        exact hbk
    exact Visited.step k0 c n0 ihk hbk' hsk hc hcs

theorem visited_split (src B : MerkleMap) (r : Nat) (n : Node) (dest2 : MerkleMap)
    (hsr : mget src r = some n) (hbr : mget B r = none)
    (hdom2 : ∀ a, (mget dest2 a).isSome = true ↔
      ((mget (minsert B r n) a).isSome = true ∨ Visited src (minsert B r n) n.left a)) :
    ∀ k, Visited src B r k →
      k = r ∨ Visited src (minsert B r n) n.left k ∨ Visited src dest2 n.right k := by
  have hrootcase : ∀ (c : Nat) (n0 : Node), mget src r = some n0 →
      (c = n0.left ∨ c = n0.right) → (mget src c).isSome = true →
      c = r ∨ Visited src (minsert B r n) n.left c ∨ Visited src dest2 n.right c := by
    intro c n0 hsk hc hcs
    rw [hsr] at hsk
    injection hsk with hn0
    subst hn0
    rcases hc with rfl | rfl
    · exact Or.inr (Or.inl (Visited.root hcs))
    · exact Or.inr (Or.inr (Visited.root hcs))
  intro k hv
  induction hv with
  | root h0 => exact Or.inl rfl
  | step k0 c n0 hk hbk hsk hc hcs ihk =>
    rcases ihk with hk1 | hk1 | hk1
    · subst hk1
      exact hrootcase c n0 hsk hc hcs
    · by_cases hb1 : (mget (minsert B r n) k0).isSome = true
      · have hk0r : k0 = r := by
          by_contra hne
          rw [mget_minsert_ne _ _ _ _ hne, hbk] at hb1
          exact Bool.noConfusion hb1
        subst hk0r
        exact hrootcase c n0 hsk hc hcs
      · have hb1' : mget (minsert B r n) k0 = none := by
          cases hx : mget (minsert B r n) k0 with
          | none => rfl
          | some w => exact absurd (by rw [hx]; rfl) hb1
        exact Or.inr (Or.inl (Visited.step k0 c n0 hk1 hb1' hsk hc hcs))
    · by_cases hb2 : (mget dest2 k0).isSome = true
      · rcases (hdom2 k0).mp hb2 with hb1 | hvl
        · have hk0r : k0 = r := by
            by_contra hne
            rw [mget_minsert_ne _ _ _ _ hne, hbk] at hb1
            exact Bool.noConfusion hb1
          subst hk0r
          exact hrootcase c n0 hsk hc hcs
        · by_cases hb1 : (mget (minsert B r n) k0).isSome = true
          · have hk0r : k0 = r := by
              by_contra hne
              rw [mget_minsert_ne _ _ _ _ hne, hbk] at hb1
              exact Bool.noConfusion hb1
            subst hk0r
            exact hrootcase c n0 hsk hc hcs
          · have hb1' : mget (minsert B r n) k0 = none := by
              cases hx : mget (minsert B r n) k0 with
              | none => rfl
              | some w => exact absurd (by rw [hx]; rfl) hb1
            exact Or.inr (Or.inl (Visited.step k0 c n0 hvl hb1' hsk hc hcs))
      · have hb2' : mget dest2 k0 = none := by
          cases hx : mget dest2 k0 with
          | none => rfl
          | some w => exact absurd (by rw [hx]; rfl) hb2
        exact Or.inr (Or.inr (Visited.step k0 c n0 hk1 hb2' hsk hc hcs))

theorem clone_char :
    ∀ (fuel : Nat) (src dest : MerkleMap) (root : Nat),
      freshCount src dest < fuel →
      ∀ k : Nat,
        (Visited src dest root k →
          mget (clone_tree_from fuel src dest root) k = mget src k) ∧
        (¬ Visited src dest root k →
          mget (clone_tree_from fuel src dest root) k = mget dest k) := by
  intro fuel
  induction fuel with
  | zero =>
    intro src dest root h
    exact absurd h (Nat.not_lt_zero _)
  | succ fuel ih =>
    intro src dest root hfuel k
    cases hsr : mget src root with
    | none =>
      have hnv : ¬ Visited src dest root k := by
        intro hv
        have h1 := visited_src_root src dest root k hv
        rw [hsr] at h1
        exact Bool.noConfusion h1
      refine ⟨fun hv => absurd hv hnv, fun _ => ?_⟩
      simp [clone_tree_from, hsr]
    | some node =>
      cases hdr : mget dest root with
      | some old =>
        refine ⟨?_, ?_⟩
        · intro hv
          have hk : k = root := visited_blocked src dest root k (by rw [hdr]; rfl) hv
          subst hk
          simp only [clone_tree_from, hsr, hdr]
          rw [mget_minsert_self]
        · intro hnv
          have hkr : k ≠ root := by
            intro h
            subst h
            exact hnv (Visited.root (by rw [hsr]; rfl))
          simp only [clone_tree_from, hsr, hdr]
          exact mget_minsert_ne _ _ _ _ hkr
      | none =>
        have hfresh1 : freshCount src (minsert dest root node) < fuel := by
          have hlt := freshCount_insert_lt src dest root node hsr hdr
          omega
        have hleft := ih src (minsert dest root node) node.left hfresh1
        have hdom2 : ∀ a,
            (mget (clone_tree_from fuel src (minsert dest root node) node.left) a).isSome
                = true ↔
              ((mget (minsert dest root node) a).isSome = true ∨
                Visited src (minsert dest root node) node.left a) := by
          intro a
          constructor
          · intro hs
            by_cases hva : Visited src (minsert dest root node) node.left a
            · exact Or.inr hva
            · rw [(hleft a).2 hva] at hs
              exact Or.inl hs
          · rintro (hs | hva)
            · exact clone_mono fuel src _ node.left a hs
            · rw [(hleft a).1 hva]
              exact visited_src src _ node.left a hva
        have hfresh2 :
            freshCount src (clone_tree_from fuel src (minsert dest root node) node.left)
              < fuel := by
          have hle := freshCount_clone_le fuel src (minsert dest root node) node.left
          omega
        have hright :=
          ih src (clone_tree_from fuel src (minsert dest root node) node.left) node.right hfresh2
        have hanti2 : ∀ a,
            mget (clone_tree_from fuel src (minsert dest root node) node.left) a = none →
              mget (minsert dest root node) a = none := by
          intro a ha
          cases hda : mget (minsert dest root node) a with
          | none => rfl
          | some w =>
            have hs := clone_mono fuel src (minsert dest root node) node.left a
              (by rw [hda]; rfl)
            rw [ha] at hs
            exact Bool.noConfusion hs
        have hsplit := visited_split src dest root node _ hsr hdr hdom2
        have hres : clone_tree_from (fuel + 1) src dest root =
            clone_tree_from fuel src
              (clone_tree_from fuel src (minsert dest root node) node.left) node.right := by
          simp [clone_tree_from, hsr, hdr]
        rw [hres]
        refine ⟨?_, ?_⟩
        · intro hv
          rcases hsplit k hv with hk | hk | hk
          · subst hk
            by_cases hvr : Visited src
                (clone_tree_from fuel src (minsert dest k node) node.left) node.right k
            · exact (hright k).1 hvr
            · rw [(hright k).2 hvr]
              by_cases hvl : Visited src (minsert dest k node) node.left k
              · exact (hleft k).1 hvl
              · rw [(hleft k).2 hvl, mget_minsert_self, hsr]
          · by_cases hvr : Visited src
                (clone_tree_from fuel src (minsert dest root node) node.left) node.right k
            · exact (hright k).1 hvr
            · rw [(hright k).2 hvr]
              exact (hleft k).1 hk
          · exact (hright k).1 hk
        · intro hnv
          have hkr : k ≠ root := by
            intro h
            subst h
            exact hnv (Visited.root (by rw [hsr]; rfl))
          have hnvl : ¬ Visited src (minsert dest root node) node.left k := by
            intro hvl
            exact hnv (visited_child src dest root node node.left hsr hdr (Or.inl rfl) k hvl)
          have hnvr : ¬ Visited src
              (clone_tree_from fuel src (minsert dest root node) node.left) node.right k := by
            intro hvr
            have h1 := visited_anti src (minsert dest root node) _ hanti2 node.right k hvr
            exact hnv (visited_child src dest root node node.right hsr hdr (Or.inr rfl) k h1)
          rw [(hright k).2 hnvr, (hleft k).2 hnvl]
          exact mget_minsert_ne _ _ _ _ hkr

theorem visited_absorb (src B B' : MerkleMap) (r : Nat)
    (hdom : ∀ a, (mget B' a).isSome = true ↔
      ((mget B a).isSome = true ∨ Visited src B r a)) :
    ∀ (r' k : Nat), Visited src B r' k → Visited src B' r' k ∨ Visited src B r k := by
  intro r' k hv
  induction hv with
  | root h0 => exact Or.inl (Visited.root h0)
  | step k0 c n hk hbk hsk hc hcs ihk =>
    rcases ihk with h1 | h1
    · by_cases hb' : (mget B' k0).isSome = true
      · rcases (hdom k0).mp hb' with h2 | h2
        · rw [hbk] at h2
          exact Bool.noConfusion h2
        · exact Or.inr (Visited.step k0 c n h2 hbk hsk hc hcs)
      · have hb'' : mget B' k0 = none := by
          cases hx : mget B' k0 with
          | none => rfl
          | some w => exact absurd (by rw [hx]; rfl) hb'
        exact Or.inl (Visited.step k0 c n h1 hb'' hsk hc hcs)
    · exact Or.inr (Visited.step k0 c n h1 hbk hsk hc hcs)

theorem subset_foldl_char :
    ∀ (roots : List Nat) (src dest : MerkleMap) (k : Nat),
      ((∃ r ∈ roots, Visited src dest r k) →
        mget (roots.foldl (fun d r => clone_tree_from (cloneFuel src) src d r) dest) k =
          mget src k) ∧
      ((¬ ∃ r ∈ roots, Visited src dest r k) →
        mget (roots.foldl (fun d r => clone_tree_from (cloneFuel src) src d r) dest) k =
          mget dest k) := by
  intro roots
  induction roots with
  | nil =>
    intro src dest k
    refine ⟨?_, fun _ => rfl⟩
    rintro ⟨r, hr, -⟩
    simp at hr
  | cons r rs ih =>
    intro src dest k
    have hfuel : freshCount src dest < cloneFuel src :=
      Nat.lt_succ_of_le (freshCount_le src dest)
    have hclone := clone_char (cloneFuel src) src dest r hfuel
    have hanti : ∀ a, mget (clone_tree_from (cloneFuel src) src dest r) a = none →
        mget dest a = none := by
      intro a ha
      cases hda : mget dest a with
      | none => rfl
      | some w =>
        have hs := clone_mono (cloneFuel src) src dest r a (by rw [hda]; rfl)
        rw [ha] at hs
        exact Bool.noConfusion hs
    have hdom1 : ∀ a,
        (mget (clone_tree_from (cloneFuel src) src dest r) a).isSome = true ↔
          ((mget dest a).isSome = true ∨ Visited src dest r a) := by
      intro a
      constructor
      · intro hs
        by_cases hva : Visited src dest r a
        · exact Or.inr hva
        · rw [(hclone a).2 hva] at hs
          exact Or.inl hs
      · rintro (hs | hva)
        · exact clone_mono (cloneFuel src) src dest r a hs
        · rw [(hclone a).1 hva]
          exact visited_src src dest r a hva
    simp only [List.foldl_cons]
    refine ⟨?_, ?_⟩
    · rintro ⟨r', hr', hv⟩
      by_cases hrs : ∃ r'' ∈ rs, Visited src (clone_tree_from (cloneFuel src) src dest r) r'' k
      · exact (ih src (clone_tree_from (cloneFuel src) src dest r) k).1 hrs
      · rw [(ih src (clone_tree_from (cloneFuel src) src dest r) k).2 hrs]
        have hvr : Visited src dest r k := by
          rcases List.mem_cons.mp hr' with rfl | hmem
          · exact hv
          · rcases visited_absorb src dest (clone_tree_from (cloneFuel src) src dest r) r
              hdom1 r' k hv with h1 | h1
            · exact absurd ⟨r', hmem, h1⟩ hrs
            · exact h1
        exact (hclone k).1 hvr
    · intro hno
      have hnr : ¬ Visited src dest r k := fun hv => hno ⟨r, List.mem_cons_self _ _, hv⟩
      have hnrs : ¬ ∃ r'' ∈ rs,
          Visited src (clone_tree_from (cloneFuel src) src dest r) r'' k := by
        rintro ⟨r'', hmem, hv⟩
        exact hno ⟨r'', List.mem_cons_of_mem _ hmem,
          visited_anti src dest (clone_tree_from (cloneFuel src) src dest r) hanti r'' k hv⟩
      rw [(ih src (clone_tree_from (cloneFuel src) src dest r) k).2 hnrs, (hclone k).2 hnr]

-- ===============================================================================================
-- C2: subset extraction
-- ===============================================================================================

/-- C2 counterexample: subset of the empty source store with no requested roots
still contains a binding, an empty-subtree bootstrap entry of the freshly
constructed destination store, although nothing at all is reachable from the
(empty) collection of requested roots; so the result does not consist exactly
of the source entries reachable from requested roots. -/
theorem subset_bootstrap_counterexample : mget (subset [] []) 2 = some ⟨0, 0⟩ := by
  simp only [subset, List.foldl_nil]
  rw [new_store_eq_explicit, mget_eq_some_iff_of_nodup _ explicit_keys_nodup 2 ⟨0, 0⟩]
  refine List.mem_map.mpr ⟨0, List.mem_range.mpr (by norm_num), ?_⟩
  decide

/-- C2 amended: subset(roots) starts from a freshly constructed (bootstrap
populated) store, and the copy from the source does not descend below keys
the destination already holds. Precisely: a key receives the source's binding
exactly when it is visited from one of the requested roots, where visiting
starts at any requested root bound in the source and passes from a visited
key that is not a bootstrap key of the fresh store to each of its children
bound in the source; every key not so visited keeps the fresh store's
binding (one of the 255 empty-subtree bootstrap entries, or absence). Roots
absent from the source visit nothing and are skipped without error. -/
theorem subset_char (src : MerkleMap) (roots : List Nat) (k : Nat) :
    ((∃ r ∈ roots, Visited src new_store r k) →
      mget (subset src roots) k = mget src k) ∧
    ((¬ ∃ r ∈ roots, Visited src new_store r k) →
      mget (subset src roots) k = mget new_store k) :=
  subset_foldl_char roots src new_store k

theorem subset_char_witness :
    mget (subset (minsert new_store 109 ⟨5, 7⟩) [109]) 109 =
      mget (minsert new_store 109 ⟨5, 7⟩) 109 ∧
    mget (subset [] []) 3 = mget new_store 3 := by
  constructor
  · exact (subset_char (minsert new_store 109 ⟨5, 7⟩) [109] 109).1
      ⟨109, List.mem_singleton.mpr rfl, Visited.root (by rw [mget_minsert_self]; rfl)⟩
  · exact (subset_char [] [] 3).2 (by simp)

end MStore
